import Mathlib

/-
  Verification development for the WikiFactCheck repository.

  Shallow embedding of the core pipeline:
    - src/wikifactcheck/text_processing.py  (tokenize_text, split_into_blocks)
    - src/wikifactcheck/analysis.py         (ArticleAnalyzer)
    - src/wikifactcheck/api.py              (OpenAIClient query/parse control flow)
    - src/wikifactcheck/visualization/terminal.py (colorize_article)
    - src/wikifactcheck.py                  (main control flow)

  Modelling conventions:
    - Python strings are `List Char`.
    - Python `\w` (regex word character) is modelled as ASCII alphanumeric or
      underscore; the spec restricts the system to Latin-alphabet-ish text and
      no claim depends on the exact character repertoire.
    - Probabilities are rationals; the code only compares and copies them
      (max, threshold comparisons), so rationals represent float values
      exactly for every operation the code performs.
    - Python dicts used only through key lookup/update are modelled as
      functions into Option; dicts iterated over (the raw score map) are
      modelled as association lists in insertion order.
    - The external model call is an oracle parameter, indexed by block
      index and source index (the call order is deterministic).
-/

namespace WFC

/-- Python strings, modelled as lists of characters. -/
abbrev Str := List Char

/-- Python regex `\w`: word character (letter, digit, underscore); ASCII model. -/
def isWordChar (c : Char) : Bool := c.isAlphanum || c == '_'

/-- Token classes produced by `tokenize_text` (text_processing.py:7-29). -/
inductive TokClass where
  | word
  | punct
  | space
deriving DecidableEq

/-- The class of a single character: word characters, whitespace, everything
else is punctuation.  Mirrors the three regex alternatives
`(\b\w+\b)|([^\w\s])|(\s+)`. -/
def classOf (c : Char) : TokClass :=
  if isWordChar c then TokClass.word
  else if c.isWhitespace then TokClass.space
  else TokClass.punct

/-- One step of tokenization, consuming characters right to left: a word or
space character merges into an adjacent token of the same class (maximal
runs), while every other character is its own punctuation token. -/
def consTok (c : Char) : List (Str × TokClass) → List (Str × TokClass)
  | [] => [([c], classOf c)]
  | (t, cl) :: rest =>
      if classOf c = cl ∧ cl ≠ TokClass.punct then (c :: t, cl) :: rest
      else ([c], classOf c) :: (t, cl) :: rest

/-- Embeds `tokenize_text` (text_processing.py:7-29): scanning with
`(\b\w+\b)|([^\w\s])|(\s+)` splits the input into maximal runs of word
characters (word tokens), maximal whitespace runs (space tokens), and single
remaining characters (punctuation tokens), covering the whole input. -/
def tokenize_text (l : Str) : List (Str × TokClass) := l.foldr consTok []

/-- Concatenation of the token texts, in order. -/
def tokJoin : List (Str × TokClass) → Str
  | [] => []
  | t :: ts => t.1 ++ tokJoin ts

/-- Helper for `countWords`: returns the number of maximal word-character runs
together with whether the string starts with a word character. -/
def cwAux : Str → Nat × Bool
  | [] => (0, false)
  | c :: cs =>
      if isWordChar c then
        (if (cwAux cs).2 then (cwAux cs).1 else (cwAux cs).1 + 1, true)
      else ((cwAux cs).1, false)

/-- Embeds `len(re.findall(r'\b\w+\b', s))` (text_processing.py:48): the
number of maximal word-character runs in a string. -/
def countWords (s : Str) : Nat := (cwAux s).1

/-- Sentence-ending characters of the blocker regex `(?<=[.!?])\s+`. -/
def isSentEnd (c : Char) : Bool := c == '.' || c == '!' || c == '?'

/-- One step (right to left) of `re.split(r'(?<=[.!?])\s+', text)`.  State:
the sentences to the right (head = sentence currently being extended at its
left end) and the maximal whitespace run read but not yet classified. -/
def sentStep (c : Char) : List Str × Str → List Str × Str
  | (sents, pend) =>
      if c.isWhitespace then (sents, c :: pend)
      else if isSentEnd c ∧ pend ≠ [] then
        -- the pending whitespace is a separator; a new sentence ends at `c`
        ([c] :: sents, [])
      else
        match sents with
        | s :: rest => ((c :: (pend ++ s)) :: rest, [])
        | [] => ([c :: pend], [])

/-- Embeds `re.split(r'(?<=[.!?])\s+', text)` (text_processing.py:42):
sentences are separated by maximal whitespace runs that directly follow one
of `.`, `!`, `?`; the separators are dropped. -/
def splitSentences (text : Str) : List Str :=
  match text.foldr sentStep ([[]], []) with
  | (s :: rest, pend) => (pend ++ s) :: rest
  | ([], pend) => [pend]

/-- Python `' '.join(current_block)` (text_processing.py:55). -/
def joinSp : List Str → Str
  | [] => []
  | [s] => s
  | s :: rest => s ++ ' ' :: joinSp rest

/-- One iteration of the greedy packing loop of `split_into_blocks`
(text_processing.py:47-57).  State: (finished blocks, current block's
sentences, current word count). -/
def packStep (T : Nat) (st : List Str × List Str × Nat) (sentence : Str) :
    List Str × List Str × Nat :=
  let w := countWords sentence
  if st.2.2 + w ≤ T then (st.1, st.2.1 ++ [sentence], st.2.2 + w)
  else if st.2.1 ≠ [] then (st.1 ++ [joinSp st.2.1], [sentence], w)
  else (st.1, [sentence], w)

/-- Embeds `split_into_blocks` (text_processing.py:31-63): split into
sentences, then greedily pack whole sentences into blocks of at most
`target_size` words, flushing the current block when the next sentence would
overflow it (unless the current block is empty). -/
def split_into_blocks (text : Str) (target_size : Nat) : List Str :=
  let st := (splitSentences text).foldl (packStep target_size) ([], [], 0)
  if st.2.1 ≠ [] then st.1 ++ [joinSp st.2.1] else st.1

/-! Section: Probability normalizer and reconciliation engine (analysis.py). -/

/-- Python `str.lower()`, ASCII model. -/
def lowerStr (s : Str) : Str := s.map Char.toLower

/-- The punctuation set `.,;:?!()[]{}"'` stripped by the normalizer and the
reconciliation lookup (analysis.py:102,132).  Braces, double quote and
apostrophe are written via their code points. -/
def stripSet : List Char :=
  ['.', ',', ';', ':', '?', '!', '(', ')', '[', ']',
   Char.ofNat 123, Char.ofNat 125, Char.ofNat 34, Char.ofNat 39]

/-- Membership in the stripped punctuation set. -/
def isStripChar (c : Char) : Bool := stripSet.contains c

/-- Python `s.strip('.,;:?!()[]{}"\'')`: remove leading and trailing
characters belonging to the set. -/
def pyStrip (s : Str) : Str :=
  ((s.dropWhile isStripChar).reverse.dropWhile isStripChar).reverse

/-- Python `s.endswith("'s")`. -/
def endsApostS (s : Str) : Bool :=
  match s.reverse with
  | c1 :: c2 :: _ => c1 == 's' && c2 == Char.ofNat 39
  | _ => false

/-- Python `s[:-2]`. -/
def dropLast2 (s : Str) : Str := s.dropLast.dropLast

/-- A raw probability value as returned by the model: either a value on which
Python `float()` succeeds (represented exactly as a rational) or one on which
it raises `ValueError`/`TypeError`. -/
inductive RawVal where
  | num (q : ℚ)
  | invalid
deriving DecidableEq

/-- A raw word-to-probability mapping, in dict insertion order. -/
abbrev RawMap := List (Str × RawVal)

/-- The normalized mapping, used through key lookup only. -/
abbrev NormMap := Str → Option ℚ

/-- Pointwise update of a finite-map-as-function (Python `d[k] = v`). -/
def updF {κ α : Type} [DecidableEq κ] (m : κ → α) (k : κ) (v : α) : κ → α :=
  fun x => if x = k then v else m x

/-- The body of the `_normalize_probabilities` loop for one entry whose value
parses as a number (analysis.py:126-145): (1) set the lowercase key,
overwriting any existing value; (2) if the punctuation-stripped form is
non-empty and differs, set it to the max of old and new; (3) if the lowercase
word ends in apostrophe-s, set the base word to the max of old and new. -/
def normStepMap (m : NormMap) (w : Str) (p : ℚ) : NormMap :=
  let wl := lowerStr w
  let m1 := updF m wl (some p)
  let s := pyStrip wl
  let m2 :=
    if s ≠ [] ∧ s ≠ wl then
      match m1 s with
      | some q => updF m1 s (some (max q p))
      | none => updF m1 s (some p)
    else m1
  if endsApostS wl then
    let base := dropLast2 wl
    match m2 base with
    | some q => if p > q then updF m2 base (some p) else m2
    | none => updF m2 base (some p)
  else m2

/-- One entry of the `_normalize_probabilities` loop, also tracking the
warnings emitted for entries whose value does not parse as a number
(analysis.py:146-147). -/
def normStepL (st : NormMap × List Str) (e : Str × RawVal) : NormMap × List Str :=
  match e.2 with
  | RawVal.invalid => (st.1, st.2 ++ [e.1])
  | RawVal.num p => (normStepMap st.1 e.1 p, st.2)

/-- Embeds `_normalize_probabilities` (analysis.py:114-149), returning the
normalized map together with the list of words warned about. -/
def normalizeWithLog (raw : RawMap) : NormMap × List Str :=
  raw.foldl normStepL (fun _ => none, [])

/-- The map component of one `_normalize_probabilities` loop entry: invalid
entries leave the map unchanged. -/
def normMapStep (m : NormMap) (e : Str × RawVal) : NormMap :=
  match e.2 with
  | RawVal.invalid => m
  | RawVal.num p => normStepMap m e.1 p

/-- Whether a raw entry's value fails to parse as a number. -/
def isInvalidEntry (e : Str × RawVal) : Bool :=
  match e.2 with
  | RawVal.invalid => true
  | RawVal.num _ => false

/-- The normalized map produced by `_normalize_probabilities`. -/
def normalize_probabilities (raw : RawMap) : NormMap := (normalizeWithLog raw).1

/-- The probability the reconciliation loop resolves for a lowercase word:
the normalized entry for the word itself, else for its punctuation-stripped
form, else the 0.0 sentinel (analysis.py:94-112). -/
def resolveScore (norm : NormMap) (k : Str) : ℚ :=
  match norm k with
  | some p => p
  | none =>
      match norm (pyStrip k) with
      | some p => p
      | none => 0

/-- A lowercase word is unmatched when it is absent from the normalized map
both as-is and after punctuation stripping. -/
def isUnmatched (norm : NormMap) (k : Str) : Bool :=
  (norm k).isNone && (norm (pyStrip k)).isNone

/-- The mutable state threaded through `_process_probabilities` for one
source: that source's word-to-score-list dict, the run-wide set of
already-warned words, and the chronological list of warnings emitted. -/
structure PState where
  sp : Str → Option (List ℚ)
  warned : List Str
  log : List Str

/-- The body of the `_process_probabilities` loop for one word token
(analysis.py:86-112): initialize the word's list if absent, look the
lowercase word up as-is, then punctuation-stripped, append the found
probability or the 0.0 sentinel, warning once per distinct word. -/
def processWord (norm : NormMap) (st : PState) (word : Str) : PState :=
  let wl := lowerStr word
  let cur : List ℚ := (st.sp wl).getD []
  match norm wl with
  | some p => ⟨updF st.sp wl (some (cur ++ [p])), st.warned, st.log⟩
  | none =>
      match norm (pyStrip wl) with
      | some p => ⟨updF st.sp wl (some (cur ++ [p])), st.warned, st.log⟩
      | none =>
          if wl ∈ st.warned then ⟨updF st.sp wl (some (cur ++ [0])), st.warned, st.log⟩
          else ⟨updF st.sp wl (some (cur ++ [0])), wl :: st.warned, st.log ++ [wl]⟩

/-- Embeds `_process_probabilities` (analysis.py:68-112): normalize the raw
map once, then walk the block's words in order. -/
def processProbabilities (raw : RawMap) (ws : List Str) (st : PState) : PState :=
  ws.foldl (processWord (normalize_probabilities raw)) st

/-- The word tokens of a block, in token order (analysis.py:48-49). -/
def wordsOf (b : Str) : List Str :=
  ((tokenize_text b).filter (fun t => t.2 = TokClass.word)).map Prod.fst

/-- The lowercased word tokens of a block, in token order. -/
def lowerWordsOf (b : Str) : List Str := (wordsOf b).map lowerStr

/-- The run state of `analyze_article`: per-source word-to-score-list dicts
(sources identified by their iteration index), the shared set of warned
words, and the chronological warning log. -/
structure AState where
  probs : Nat → Str → Option (List ℚ)
  warned : List Str
  log : List Str

/-- The body of the source loop of `analyze_article` (analysis.py:51-64) for
one source index: query the scorer for this (block, source) pair and, only if
the response dictionary has the key "probabilities", run
`_process_probabilities` on that source's dict.  `scorer i j = none` models a
response lacking the key; `scorer i j = some raw` models a response carrying
the inner mapping `raw`. -/
def sourceStep (scorer : Nat → Nat → Option RawMap) (i : Nat) (ws : List Str)
    (st : AState) (j : Nat) : AState :=
  match scorer i j with
  | none => st
  | some raw =>
      let r := processProbabilities raw ws ⟨st.probs j, st.warned, st.log⟩
      ⟨updF st.probs j r.sp, r.warned, r.log⟩

/-- The body of the block loop of `analyze_article` (analysis.py:44-64):
tokenize the block, extract its word tokens, then process every source in
order. -/
def blockStep (scorer : Nat → Nat → Option RawMap) (ns : Nat)
    (st : AState) (ib : Nat × Str) : AState :=
  (List.range ns).foldl (sourceStep scorer ib.1 (wordsOf ib.2)) st

/-- Embeds `analyze_article` (analysis.py:29-66) over `ns` sources: an empty
dict per source and an empty warned set, then the nested block and source
loops. -/
def analyze_article (blocks : List Str) (ns : Nat)
    (scorer : Nat → Nat → Option RawMap) : AState :=
  blocks.enum.foldl (blockStep scorer ns) ⟨fun _ _ => none, [], []⟩

/-- Extension of an optional score list by newly appended entries: the dict
entry stays absent when nothing is appended, and is created on first use. -/
def extendO (o : Option (List ℚ)) (L : List ℚ) : Option (List ℚ) :=
  if L = [] then o else some (o.getD [] ++ L)

/-- The scores `analyze_article` appends for the lowercase word `k` under
source `j` while processing block `ib`: nothing when the response lacks the
"probabilities" key, otherwise one resolved score per occurrence of `k`
among the block's lowercased word tokens. -/
def contribFn (scorer : Nat → Nat → Option RawMap) (j : Nat) (k : Str)
    (ib : Nat × Str) : List ℚ :=
  match scorer ib.1 j with
  | none => []
  | some raw =>
      List.replicate ((lowerWordsOf ib.2).count k)
        (resolveScore (normalize_probabilities raw) k)

/-- Whether block `i`, source `j` of a run leaves the lowercase word `k`
unmatched: the response carries the key and `k` occurs in block `b` but is
absent from the normalized map both as-is and stripped. -/
def unmatchedAt (scorer : Nat → Nat → Option RawMap) (k : Str)
    (i j : Nat) (b : Str) : Bool :=
  match scorer i j with
  | none => false
  | some raw => decide (k ∈ lowerWordsOf b) && isUnmatched (normalize_probabilities raw) k

/-- Whether some processed (block, source) pair of the run leaves the
lowercase word `k` unmatched. -/
def unmatchedOccurs (blocks : List Str) (ns : Nat)
    (scorer : Nat → Nat → Option RawMap) (k : Str) : Bool :=
  blocks.enum.any (fun ib => (List.range ns).any (fun j => unmatchedAt scorer k ib.1 j ib.2))

/-- The word-walking loop of `_process_probabilities` over an arbitrary
normalized map. -/
def processWords (norm : NormMap) (ws : List Str) (st : PState) : PState :=
  ws.foldl (processWord norm) st

/-- The scores appended for `k` by one (block, source) call, with the block
given by its word-token list `ws`. -/
def srcContrib (scorer : Nat → Nat → Option RawMap) (i j : Nat)
    (ws : List Str) (k : Str) : List ℚ :=
  match scorer i j with
  | none => []
  | some raw =>
      List.replicate ((ws.map lowerStr).count k)
        (resolveScore (normalize_probabilities raw) k)

/-- Whether one (block, source) call leaves `k` unmatched, with the block
given by its word-token list `ws`. -/
def srcUnmatched (scorer : Nat → Nat → Option RawMap) (i j : Nat)
    (ws : List Str) (k : Str) : Bool :=
  match scorer i j with
  | none => false
  | some raw =>
      decide (k ∈ ws.map lowerStr) && isUnmatched (normalize_probabilities raw) k

/-- A produced block is acceptable when its word count is within the target
or it is verbatim one of the sentences. -/
def goodBlock (S : List Str) (T : Nat) (b : Str) : Prop :=
  countWords b ≤ T ∨ b ∈ S

/-! Section: Terminal projector (visualization/terminal.py). -/

/-- Coloring thresholds (config.py:13-14). -/
def HIGH_SUPPORT_THRESHOLD : ℚ := mkRat 7 10

/-- Partial-support threshold (config.py:14). -/
def PARTIAL_SUPPORT_THRESHOLD : ℚ := mkRat 35 100

/-- The color applied to a token by `colorize_article`; ANSI escape spans
(`Fore.GREEN`/`YELLOW`/`RED` + reset) are abstracted to tags, and `plain`
marks tokens passed through uncolored. -/
inductive Color where
  | green
  | yellow
  | red
  | plain
deriving DecidableEq

/-- The threshold tiers of terminal.py:49-54. -/
def tier (p : ℚ) : Color :=
  if p > HIGH_SUPPORT_THRESHOLD then Color.green
  else if p > PARTIAL_SUPPORT_THRESHOLD then Color.yellow
  else Color.red

/-- The color chosen for a word token (terminal.py:44-57): if the word has a
score list and the occurrence index is within it, tier of that entry;
otherwise red. -/
def colorFor (probs : Str → Option (List ℚ)) (wl : Str) (idx : Nat) : Color :=
  match probs wl with
  | some l => if idx < l.length then tier (l.getD idx 0) else Color.red
  | none => Color.red

/-- The loop of `colorize_article` (terminal.py:31-60) with its explicit
occurrence-counter dict: a word first maps to counter 0, later occurrences
increment it; non-word tokens pass through unchanged. -/
def colorizeLoop (probs : Str → Option (List ℚ)) (wo : Str → Option Nat) :
    List (Str × TokClass) → List (Str × Color)
  | [] => []
  | (tok, cl) :: ts =>
      if cl = TokClass.word then
        let wl := lowerStr tok
        let cur : Nat := match wo wl with | none => 0 | some m => m + 1
        (tok, colorFor probs wl cur) :: colorizeLoop probs (updF wo wl (some cur)) ts
      else
        (tok, Color.plain) :: colorizeLoop probs wo ts

/-- Embeds `colorize_article` (terminal.py:14-62): tokenize the text and walk
the tokens with an empty occurrence-counter dict. -/
def colorize_article (text : Str) (probs : Str → Option (List ℚ)) :
    List (Str × Color) :=
  colorizeLoop probs (fun _ => none) (tokenize_text text)

/-- The probability the claim resolves for the `idx`-th occurrence of a word:
the `idx`-th entry of its score list, or 0.0 when the word has no list or the
index is beyond the list's length. -/
def resolveProb (probs : Str → Option (List ℚ)) (wl : Str) (idx : Nat) : ℚ :=
  match probs wl with
  | some l => l.getD idx 0
  | none => 0

/-- Reference rendering following the claim's words: walk the tokens in
order with the list `prev` of lowercased word tokens already seen in this
render pass; the occurrence index of a word is the number of its earlier
occurrences, and each word token is tiered by its resolved probability. -/
def colorizeSpecAux (probs : Str → Option (List ℚ)) (prev : List Str) :
    List (Str × TokClass) → List (Str × Color)
  | [] => []
  | (tok, cl) :: ts =>
      if cl = TokClass.word then
        let wl := lowerStr tok
        (tok, tier (resolveProb probs wl (prev.count wl))) ::
          colorizeSpecAux probs (prev ++ [wl]) ts
      else
        (tok, Color.plain) :: colorizeSpecAux probs prev ts

/-- Reference rendering of a whole text, per the claim's words. -/
def colorizeSpec (text : Str) (probs : Str → Option (List ℚ)) :
    List (Str × Color) :=
  colorizeSpecAux probs [] (tokenize_text text)

/-! Section: Scorer gateway control flow (api.py). -/

/-- JSON values, the possible results of Python `json.loads`. -/
inductive JValue where
  | jnull
  | jbool (b : Bool)
  | jnum (q : ℚ)
  | jstr (s : Str)
  | jarr (elems : List JValue)
  | jobj (fields : List (Str × JValue))

/-- The key `"probabilities"` of the wire format (config.py:30-39). -/
def probabilitiesKey : Str := "probabilities".toList

/-- The gateway's failure value `{"probabilities": {}}` (api.py:64,127). -/
def emptyProbs : JValue := JValue.jobj [(probabilitiesKey, JValue.jobj [])]

/-- Whether a JSON value is an object carrying the given key. -/
def hasKey (v : JValue) (k : Str) : Bool :=
  match v with
  | JValue.jobj fields => fields.any (fun f => f.1 = k)
  | _ => false

/-- Embeds `_parse_response` (api.py:106-127) with the external library
behavior as oracles: `loads` is Python `json.loads` (which may raise), and
`search` is `re.search(r'({.*})', text, re.DOTALL)` returning the extracted
span.  On a parse failure with an extractable span, the second `json.loads`
call is NOT guarded here: its exception escapes `_parse_response`. -/
def parse_response (loads : Str → Except Unit JValue) (search : Str → Option Str)
    (text : Str) : Except Unit JValue :=
  match loads text with
  | Except.ok v => Except.ok v
  | Except.error _ =>
      match search text with
      | some g => loads g
      | none => Except.ok emptyProbs

/-- Embeds `query_for_fact_check` (api.py:34-67): the transport call either
raises (`Except.error`, covering network failure and timeout) or returns the
response text, which is then parsed; any exception raised inside the `try`
block — including one escaping `_parse_response`'s fallback parse — is caught
and mapped to `{"probabilities": {}}`. -/
def query_for_fact_check (loads : Str → Except Unit JValue)
    (search : Str → Option Str) (transport : Except Unit Str) : JValue :=
  match transport with
  | Except.error _ => emptyProbs
  | Except.ok text =>
      match parse_response loads search text with
      | Except.ok v => v
      | Except.error _ => emptyProbs

/-! Section: CLI entry point control flow (wikifactcheck.py main). -/

/-- The outcome of one `main` run (wikifactcheck.py:377-432), modelled up to
the point where scoring would begin: the error messages printed (info prints
omitted), the process exit status, whether scoring began, and whether an
exception's stack trace was surfaced by the catch-all handler. -/
structure MainResult where
  printed : List Str
  exitCode : Nat
  scoringStarted : Bool
  stackTraceLogged : Bool
deriving DecidableEq

/-- wikifactcheck.py:384. -/
def keyErrorMsg : Str := "Error: Please set the OPENAI_API_KEY environment variable".toList

/-- wikifactcheck.py:400. -/
def noSourcesMsg : Str := "Error: No source files found (source*.txt)".toList

/-- Embeds the control flow of `main` (wikifactcheck.py:377-432).  Inputs
model the environment: the OPENAI_API_KEY variable, the content of
article.txt when it exists, and the loaded source files.  A missing API key
or an empty source list make `main` print an error and return — falling off
`main` ends the process with exit status 0.  A missing article file raises
inside the catch-all `try`, whose handler logs the stack trace; `main` still
returns normally.  The scoring pipeline itself (analyzed separately above) is
beyond the early-exit logic this models and is represented by the
`scoringStarted` flag. -/
def mainModel (apiKey : Option Str) (articleFile : Option Str)
    (sourceFiles : List (Str × Str)) : MainResult :=
  match apiKey with
  | none => ⟨[keyErrorMsg], 0, false, false⟩
  | some _ =>
      match articleFile with
      | none => ⟨[], 0, false, true⟩
      | some _ =>
          if sourceFiles.isEmpty then ⟨[noSourcesMsg], 0, false, false⟩
          else ⟨[], 0, true, false⟩

/-! Section: Tokenizer lemmas and claim C2. -/

theorem tokenize_cons (c : Char) (cs : Str) :
    tokenize_text (c :: cs) = consTok c (tokenize_text cs) := rfl

theorem tokJoin_consTok (c : Char) (L : List (Str × TokClass)) :
    tokJoin (consTok c L) = c :: tokJoin L := by
  cases L with
  | nil => rfl
  | cons t rest =>
      obtain ⟨txt, cl⟩ := t
      by_cases h : classOf c = cl ∧ cl ≠ TokClass.punct
      · simp [consTok, h, tokJoin]
      · simp [consTok, h, tokJoin]

/-- C2: for every input string, concatenating the token texts produced by
`tokenize_text`, in order, reproduces the input exactly (so the tokens cover
the input with no gaps and no overlaps), and the empty string yields the
empty token sequence. -/
theorem C2_tokenizer_roundtrip (l : Str) :
    tokJoin (tokenize_text l) = l ∧ tokenize_text ([] : Str) = [] := by
  refine ⟨?_, rfl⟩
  induction l with
  | nil => rfl
  | cons c cs ih => rw [tokenize_cons, tokJoin_consTok, ih]

/-! Section: Word-count and blocker lemmas, claim C6. -/

theorem cwAux_append_space (a b : Str) :
    cwAux (a ++ ' ' :: b) = ((cwAux a).1 + (cwAux b).1, (cwAux a).2) := by
  induction a with
  | nil => simp [cwAux, isWordChar]
  | cons c a' ih =>
      show cwAux (c :: (a' ++ ' ' :: b)) = _
      simp only [cwAux]
      rw [ih]
      by_cases h : isWordChar c = true
      · simp only [h, if_true]
        by_cases h2 : (cwAux a').2 = true
        · simp [h2]
        · simp only [Bool.not_eq_true] at h2
          simp [h2]; omega
      · simp only [Bool.not_eq_true] at h
        simp [h]

theorem countWords_joinSp (l : List Str) :
    countWords (joinSp l) = (l.map countWords).sum := by
  induction l with
  | nil => rfl
  | cons s rest ih =>
      cases rest with
      | nil => simp [joinSp]
      | cons s' rest' =>
          show countWords (s ++ ' ' :: joinSp (s' :: rest')) = _
          simp only [countWords, cwAux_append_space, List.map_cons, List.sum_cons]
          have := ih
          simp only [countWords, List.map_cons, List.sum_cons] at this
          omega

theorem pack_inv (T : Nat) (S : List Str) :
    ∀ (ss blocks cur : List Str) (cnt : Nat),
    (∀ s ∈ ss, s ∈ S) →
    cnt = (cur.map countWords).sum →
    (∀ b ∈ blocks, goodBlock S T b) →
    ((cur.map countWords).sum ≤ T ∨ ∃ s ∈ S, cur = [s]) →
    (ss.foldl (packStep T) (blocks, cur, cnt)).2.2 =
        (((ss.foldl (packStep T) (blocks, cur, cnt)).2.1).map countWords).sum ∧
    (∀ b ∈ (ss.foldl (packStep T) (blocks, cur, cnt)).1, goodBlock S T b) ∧
    ((((ss.foldl (packStep T) (blocks, cur, cnt)).2.1).map countWords).sum ≤ T ∨
        ∃ s ∈ S, (ss.foldl (packStep T) (blocks, cur, cnt)).2.1 = [s]) := by
  intro ss
  induction ss with
  | nil =>
      intro blocks cur cnt _ hcnt hgood hcur
      exact ⟨hcnt, hgood, hcur⟩
  | cons s ss' ih =>
      intro blocks cur cnt hss hcnt hgood hcur
      have hsS : s ∈ S := hss s (by simp)
      have hss' : ∀ x ∈ ss', x ∈ S := fun x hx => hss x (by simp [hx])
      simp only [List.foldl_cons]
      by_cases hfit : cnt + countWords s ≤ T
      · have hstep : packStep T (blocks, cur, cnt) s =
            (blocks, cur ++ [s], cnt + countWords s) := by
          simp [packStep, hfit]
        rw [hstep]
        refine ih blocks (cur ++ [s]) (cnt + countWords s) hss' ?_ hgood ?_
        · simp [hcnt]
        · left; simp; omega
      · by_cases hne : cur ≠ []
        · have hstep : packStep T (blocks, cur, cnt) s =
              (blocks ++ [joinSp cur], [s], countWords s) := by
            simp [packStep, hfit, hne]
          rw [hstep]
          refine ih (blocks ++ [joinSp cur]) [s] (countWords s) hss' (by simp) ?_ ?_
          · intro b hb
            rcases List.mem_append.mp hb with hb | hb
            · exact hgood b hb
            · have hb0 : b = joinSp cur := by simpa using hb
              subst hb0
              rcases hcur with h | ⟨s0, hs0, hcur0⟩
              · left; rw [countWords_joinSp]; exact h
              · right; rw [hcur0]; simpa [joinSp] using hs0
          · by_cases hw : countWords s ≤ T
            · left; simpa using hw
            · right; exact ⟨s, hsS, rfl⟩
        · push_neg at hne
          have hstep : packStep T (blocks, cur, cnt) s =
              (blocks, [s], countWords s) := by
            simp [packStep, hfit, hne]
          rw [hstep]
          refine ih blocks [s] (countWords s) hss' (by simp) hgood ?_
          by_cases hw : countWords s ≤ T
          · left; simpa using hw
          · right; exact ⟨s, hsS, rfl⟩

theorem pack_parts (T : Nat) :
    ∀ (ss blocks cur : List Str) (cnt : Nat) (parts : List (List Str)),
    blocks = parts.map joinSp →
    ∃ parts' : List (List Str),
      (ss.foldl (packStep T) (blocks, cur, cnt)).1 = parts'.map joinSp ∧
      parts'.flatten ++ (ss.foldl (packStep T) (blocks, cur, cnt)).2.1 =
        parts.flatten ++ cur ++ ss := by
  intro ss
  induction ss with
  | nil =>
      intro blocks cur cnt parts hb
      exact ⟨parts, hb, by simp⟩
  | cons s ss' ih =>
      intro blocks cur cnt parts hb
      simp only [List.foldl_cons]
      by_cases hfit : cnt + countWords s ≤ T
      · have hstep : packStep T (blocks, cur, cnt) s =
            (blocks, cur ++ [s], cnt + countWords s) := by
          simp [packStep, hfit]
        rw [hstep]
        obtain ⟨parts', h1, h2⟩ := ih blocks (cur ++ [s]) (cnt + countWords s) parts hb
        exact ⟨parts', h1, by rw [h2]; simp⟩
      · by_cases hne : cur ≠ []
        · have hstep : packStep T (blocks, cur, cnt) s =
              (blocks ++ [joinSp cur], [s], countWords s) := by
            simp [packStep, hfit, hne]
          rw [hstep]
          obtain ⟨parts', h1, h2⟩ :=
            ih (blocks ++ [joinSp cur]) [s] (countWords s) (parts ++ [cur])
              (by simp [hb])
          refine ⟨parts', h1, ?_⟩
          rw [h2]; simp
        · push_neg at hne
          have hstep : packStep T (blocks, cur, cnt) s =
              (blocks, [s], countWords s) := by
            simp [packStep, hfit, hne]
          rw [hstep]
          obtain ⟨parts', h1, h2⟩ := ih blocks [s] (countWords s) parts hb
          refine ⟨parts', h1, ?_⟩
          rw [h2]; simp [hne]

/-- C6: for every input text and every target word count T ≥ 1, every block
produced by `split_into_blocks` has word count (count of maximal
word-character runs) at most T, unless it is verbatim a single sentence whose
own word count exceeds T; and the blocks are exactly the sentences of the
text, in order, grouped into consecutive runs — no sentence is split across
blocks. -/
theorem split_into_blocks_eq (text : Str) (T : Nat) :
    split_into_blocks text T =
      if ((splitSentences text).foldl (packStep T) ([], [], 0)).2.1 ≠ [] then
        ((splitSentences text).foldl (packStep T) ([], [], 0)).1 ++
          [joinSp ((splitSentences text).foldl (packStep T) ([], [], 0)).2.1]
      else ((splitSentences text).foldl (packStep T) ([], [], 0)).1 := rfl

theorem C6_blocker_size_bound (text : Str) (T : Nat) (hT : 1 ≤ T) :
    (∀ b ∈ split_into_blocks text T,
        countWords b ≤ T ∨ (b ∈ splitSentences text ∧ T < countWords b)) ∧
    (∃ parts : List (List Str),
        split_into_blocks text T = parts.map joinSp ∧
        parts.flatten = splitSentences text) := by
  clear hT
  constructor
  · intro b hb
    have hinv := pack_inv T (splitSentences text) (splitSentences text) [] [] 0
      (fun s hs => hs) rfl (by intro b hb; cases hb) (by left; simp)
    rw [split_into_blocks_eq] at hb
    by_cases hne : ((splitSentences text).foldl (packStep T) ([], [], 0)).2.1 ≠ []
    · rw [if_pos hne] at hb
      rcases List.mem_append.mp hb with hb | hb
      · rcases hinv.2.1 b hb with h | h
        · exact Or.inl h
        · by_cases hle : countWords b ≤ T
          · exact Or.inl hle
          · exact Or.inr ⟨h, by omega⟩
      · have hb0 : b = joinSp ((splitSentences text).foldl (packStep T) ([], [], 0)).2.1 := by
          simpa using hb
        subst hb0
        rcases hinv.2.2 with h | ⟨s0, hs0, hc⟩
        · left; rw [countWords_joinSp]; exact h
        · by_cases hle : countWords (joinSp (((splitSentences text).foldl (packStep T) ([], [], 0)).2.1)) ≤ T
          · exact Or.inl hle
          · refine Or.inr ⟨?_, by omega⟩
            rw [hc]; simpa [joinSp] using hs0
    · rw [if_neg hne] at hb
      rcases hinv.2.1 b hb with h | h
      · exact Or.inl h
      · by_cases hle : countWords b ≤ T
        · exact Or.inl hle
        · exact Or.inr ⟨h, by omega⟩
  · obtain ⟨parts', h1, h2⟩ := pack_parts T (splitSentences text) [] [] 0 [] rfl
    rw [split_into_blocks_eq]
    by_cases hne : ((splitSentences text).foldl (packStep T) ([], [], 0)).2.1 ≠ []
    · refine ⟨parts' ++ [((splitSentences text).foldl (packStep T) ([], [], 0)).2.1], ?_, ?_⟩
      · rw [if_pos hne, h1]; simp
      · simp only [List.flatten_append, List.flatten_cons, List.flatten_nil, List.append_nil]
        simpa using h2
    · push_neg at hne
      refine ⟨parts', by rw [if_neg (by simpa using hne), h1], ?_⟩
      have := h2
      rw [hne] at this
      simpa using this

/-! Section: Reconciliation engine lemmas. -/

theorem processWord_sp (norm : NormMap) (st : PState) (word : Str) :
    (processWord norm st word).sp =
      updF st.sp (lowerStr word)
        (some (((st.sp (lowerStr word)).getD []) ++
          [resolveScore norm (lowerStr word)])) := by
  rcases h1 : norm (lowerStr word) with _ | p
  · rcases h2 : norm (pyStrip (lowerStr word)) with _ | p2
    · by_cases hm : lowerStr word ∈ st.warned
      · simp [processWord, resolveScore, h1, h2, hm]
      · simp [processWord, resolveScore, h1, h2, hm]
    · simp [processWord, resolveScore, h1, h2]
  · simp [processWord, resolveScore, h1]

theorem processWord_warned (norm : NormMap) (st : PState) (word : Str) :
    (processWord norm st word).warned =
      if isUnmatched norm (lowerStr word) = true ∧ lowerStr word ∉ st.warned then
        lowerStr word :: st.warned
      else st.warned := by
  rcases h1 : norm (lowerStr word) with _ | p
  · rcases h2 : norm (pyStrip (lowerStr word)) with _ | p2
    · by_cases hm : lowerStr word ∈ st.warned
      · simp [processWord, isUnmatched, h1, h2, hm]
      · simp [processWord, isUnmatched, h1, h2, hm]
    · simp [processWord, isUnmatched, h1, h2]
  · simp [processWord, isUnmatched, h1]

theorem processWord_log (norm : NormMap) (st : PState) (word : Str) :
    (processWord norm st word).log =
      if isUnmatched norm (lowerStr word) = true ∧ lowerStr word ∉ st.warned then
        st.log ++ [lowerStr word]
      else st.log := by
  rcases h1 : norm (lowerStr word) with _ | p
  · rcases h2 : norm (pyStrip (lowerStr word)) with _ | p2
    · by_cases hm : lowerStr word ∈ st.warned
      · simp [processWord, isUnmatched, h1, h2, hm]
      · simp [processWord, isUnmatched, h1, h2, hm]
    · simp [processWord, isUnmatched, h1, h2]
  · simp [processWord, isUnmatched, h1]

theorem extendO_nil (o : Option (List ℚ)) : extendO o [] = o := rfl

theorem extendO_extendO (o : Option (List ℚ)) (L1 L2 : List ℚ) :
    extendO (extendO o L1) L2 = extendO o (L1 ++ L2) := by
  by_cases h1 : L1 = []
  · subst h1; simp [extendO]
  · by_cases h2 : L2 = []
    · subst h2; simp [extendO, h1]
    · have h12 : L1 ++ L2 ≠ [] := by simp [h1]
      simp [extendO, h1, h2, h12]

theorem extendO_snoc (o : Option (List ℚ)) (r : ℚ) (c : Nat) :
    extendO (some ((o.getD []) ++ [r])) (List.replicate c r) =
      extendO o (List.replicate (c + 1) r) := by
  cases c with
  | zero => simp [extendO]
  | succ c' =>
      have h1 : List.replicate (c' + 1) r ≠ [] := by simp
      have h2 : List.replicate (c' + 1 + 1) r ≠ [] := by simp
      simp only [extendO, if_neg h1, if_neg h2, Option.getD_some]
      rw [List.replicate_succ (n := c' + 1)]
      simp

theorem processWords_sp (norm : NormMap) :
    ∀ (ws : List Str) (st : PState) (k : Str),
    (processWords norm ws st).sp k =
      extendO (st.sp k)
        (List.replicate ((ws.map lowerStr).count k) (resolveScore norm k)) := by
  intro ws
  induction ws with
  | nil => intro st k; simp [processWords, extendO]
  | cons w ws' ih =>
      intro st k
      show (processWords norm ws' (processWord norm st w)).sp k = _
      rw [ih, processWord_sp]
      by_cases hk : k = lowerStr w
      · subst hk
        simp only [updF, if_pos rfl, List.map_cons, List.count_cons, beq_self_eq_true,
          if_pos rfl]
        exact extendO_snoc _ _ _
      · have hbk : (k == lowerStr w) = false := by
          simp [beq_eq_false_iff_ne, hk]
        simp [updF, hk, List.count_cons, hbk]

theorem processWords_warned_mem (norm : NormMap) :
    ∀ (ws : List Str) (st : PState) (k : Str),
    k ∈ (processWords norm ws st).warned ↔
      k ∈ st.warned ∨ (k ∈ ws.map lowerStr ∧ isUnmatched norm k = true) := by
  intro ws
  induction ws with
  | nil => intro st k; simp [processWords]
  | cons w ws' ih =>
      intro st k
      show k ∈ (processWords norm ws' (processWord norm st w)).warned ↔ _
      rw [ih, processWord_warned]
      by_cases hk : k = lowerStr w
      · subst hk
        by_cases hc : isUnmatched norm (lowerStr w) = true ∧ lowerStr w ∉ st.warned
        · simp only [if_pos hc, List.mem_cons, List.map_cons]
          have := hc.1
          tauto
        · simp only [if_neg hc, List.map_cons, List.mem_cons]
          push_neg at hc
          by_cases hu : isUnmatched norm (lowerStr w) = true
          · have := hc hu
            tauto
          · tauto
      · by_cases hc : isUnmatched norm (lowerStr w) = true ∧ lowerStr w ∉ st.warned
        · simp only [if_pos hc, List.mem_cons, List.map_cons]
          tauto
        · simp only [if_neg hc, List.map_cons, List.mem_cons]
          tauto

theorem processWords_log_inv (norm : NormMap) :
    ∀ (ws : List Str) (st : PState),
    st.log.Nodup → (∀ x, x ∈ st.log ↔ x ∈ st.warned) →
    (processWords norm ws st).log.Nodup ∧
      (∀ x, x ∈ (processWords norm ws st).log ↔ x ∈ (processWords norm ws st).warned) := by
  intro ws
  induction ws with
  | nil => intro st h1 h2; exact ⟨h1, h2⟩
  | cons w ws' ih =>
      intro st h1 h2
      show (processWords norm ws' (processWord norm st w)).log.Nodup ∧ _
      refine ih (processWord norm st w) ?_ ?_
      · rw [processWord_log]
        by_cases hc : isUnmatched norm (lowerStr w) = true ∧ lowerStr w ∉ st.warned
        · rw [if_pos hc]
          have hnl : lowerStr w ∉ st.log := fun hmem => hc.2 ((h2 _).mp hmem)
          simp [List.nodup_append, h1, hnl]
        · rw [if_neg hc]; exact h1
      · intro x
        rw [processWord_log, processWord_warned]
        by_cases hc : isUnmatched norm (lowerStr w) = true ∧ lowerStr w ∉ st.warned
        · rw [if_pos hc, if_pos hc]
          simp only [List.mem_append, List.mem_cons, List.mem_singleton]
          rw [h2 x]
          tauto
        · rw [if_neg hc, if_neg hc]; exact h2 x

theorem processProbabilities_eq (raw : RawMap) (ws : List Str) (st : PState) :
    processProbabilities raw ws st = processWords (normalize_probabilities raw) ws st := rfl

theorem count_one_of_nodup_mem {l : List Str} {a : Str}
    (h1 : l.Nodup) (h2 : a ∈ l) : l.count a = 1 := by
  induction l with
  | nil => cases h2
  | cons b rest ih =>
      rw [List.count_cons]
      rcases List.mem_cons.mp h2 with he | hr
      · subst he
        have hnb : a ∉ rest := (List.nodup_cons.mp h1).1
        rw [List.count_eq_zero.mpr hnb]
        simp
      · have hne : a ≠ b := by
          rintro rfl
          exact (List.nodup_cons.mp h1).1 hr
        rw [ih (List.nodup_cons.mp h1).2 hr]
        have hb : (b == a) = false := beq_eq_false_iff_ne.mpr (Ne.symm hne)
        have hb2 : (a == b) = false := beq_eq_false_iff_ne.mpr hne
        simp [hb, hb2]

theorem resolveScore_unmatched (norm : NormMap) (k : Str)
    (h : isUnmatched norm k = true) : resolveScore norm k = 0 := by
  unfold isUnmatched at h
  rcases h1 : norm k with _ | p
  · rcases h2 : norm (pyStrip k) with _ | p2
    · simp [resolveScore, h1, h2]
    · rw [h1, h2] at h; simp at h
  · rw [h1] at h; simp at h

theorem unmatchedAt_eq (scorer : Nat → Nat → Option RawMap) (k : Str)
    (i j : Nat) (b : Str) :
    unmatchedAt scorer k i j b = srcUnmatched scorer i j (wordsOf b) k := rfl

/-! Section: Source-loop and block-loop characterization. -/

theorem sourceStep_none (scorer : Nat → Nat → Option RawMap) (i : Nat)
    (ws : List Str) (st : AState) (j : Nat) (h : scorer i j = none) :
    sourceStep scorer i ws st j = st := by
  unfold sourceStep; rw [h]

theorem sourceStep_probs_ne (scorer : Nat → Nat → Option RawMap) (i : Nat)
    (ws : List Str) (st : AState) (j j' : Nat) (h : j' ≠ j) :
    (sourceStep scorer i ws st j).probs j' = st.probs j' := by
  unfold sourceStep
  cases hs : scorer i j
  · rfl
  · simp [updF, h]

theorem sourceStep_some_probs (scorer : Nat → Nat → Option RawMap) (i : Nat)
    (ws : List Str) (st : AState) (j : Nat) (raw : RawMap)
    (h : scorer i j = some raw) (k : Str) :
    (sourceStep scorer i ws st j).probs j k =
      extendO (st.probs j k)
        (List.replicate ((ws.map lowerStr).count k)
          (resolveScore (normalize_probabilities raw) k)) := by
  have hs : (sourceStep scorer i ws st j).probs j k =
      (processWords (normalize_probabilities raw) ws ⟨st.probs j, st.warned, st.log⟩).sp k := by
    unfold sourceStep
    rw [h]
    simp [updF, processProbabilities_eq]
  rw [hs, processWords_sp]

theorem sourceStep_warned_mem (scorer : Nat → Nat → Option RawMap) (i : Nat)
    (ws : List Str) (st : AState) (j : Nat) (k : Str) :
    k ∈ (sourceStep scorer i ws st j).warned ↔
      k ∈ st.warned ∨ srcUnmatched scorer i j ws k = true := by
  cases hs : scorer i j with
  | none => rw [sourceStep_none _ _ _ _ _ hs]; simp [srcUnmatched, hs]
  | some raw =>
      have he : (sourceStep scorer i ws st j).warned =
          (processWords (normalize_probabilities raw) ws ⟨st.probs j, st.warned, st.log⟩).warned := by
        unfold sourceStep
        rw [hs]
        rfl
      rw [he, processWords_warned_mem]
      simp [srcUnmatched, hs, Bool.and_eq_true, decide_eq_true_eq]

theorem sourceStep_log_inv (scorer : Nat → Nat → Option RawMap) (i : Nat)
    (ws : List Str) (st : AState) (j : Nat)
    (h1 : st.log.Nodup) (h2 : ∀ x, x ∈ st.log ↔ x ∈ st.warned) :
    (sourceStep scorer i ws st j).log.Nodup ∧
      (∀ x, x ∈ (sourceStep scorer i ws st j).log ↔
        x ∈ (sourceStep scorer i ws st j).warned) := by
  cases hs : scorer i j with
  | none => rw [sourceStep_none _ _ _ _ _ hs]; exact ⟨h1, h2⟩
  | some raw =>
      have he : sourceStep scorer i ws st j =
          ⟨updF st.probs j (processWords (normalize_probabilities raw) ws
              ⟨st.probs j, st.warned, st.log⟩).sp,
            (processWords (normalize_probabilities raw) ws
              ⟨st.probs j, st.warned, st.log⟩).warned,
            (processWords (normalize_probabilities raw) ws
              ⟨st.probs j, st.warned, st.log⟩).log⟩ := by
        unfold sourceStep
        rw [hs]
        rfl
      rw [he]
      exact processWords_log_inv (normalize_probabilities raw) ws
        ⟨st.probs j, st.warned, st.log⟩ h1 h2

theorem foldSrc_probs_notin (scorer : Nat → Nat → Option RawMap) (i : Nat)
    (ws : List Str) :
    ∀ (js : List Nat) (st : AState) (j : Nat), j ∉ js →
    ((js.foldl (sourceStep scorer i ws) st).probs j) = st.probs j := by
  intro js
  induction js with
  | nil => intro st j _; rfl
  | cons a rest ih =>
      intro st j h
      simp only [List.foldl_cons]
      rw [ih _ _ (fun hr => h (List.mem_cons_of_mem a hr))]
      exact sourceStep_probs_ne _ _ _ _ _ _
        (fun he => h (he ▸ List.mem_cons_self a rest))

theorem foldSrc_probs_in (scorer : Nat → Nat → Option RawMap) (i : Nat)
    (ws : List Str) :
    ∀ (js : List Nat) (st : AState) (j : Nat) (k : Str), js.Nodup → j ∈ js →
    (js.foldl (sourceStep scorer i ws) st).probs j k =
      extendO (st.probs j k) (srcContrib scorer i j ws k) := by
  intro js
  induction js with
  | nil => intro st j k _ h; cases h
  | cons a rest ih =>
      intro st j k hnd hj
      simp only [List.foldl_cons]
      by_cases hja : j = a
      · subst hja
        have hnr : j ∉ rest := (List.nodup_cons.mp hnd).1
        have := foldSrc_probs_notin scorer i ws rest (sourceStep scorer i ws st j) j hnr
        rw [show ((rest.foldl (sourceStep scorer i ws) (sourceStep scorer i ws st j)).probs j k)
              = ((sourceStep scorer i ws st j).probs j k) from by rw [this]]
        cases hs : scorer i j with
        | none =>
            rw [sourceStep_none _ _ _ _ _ hs]
            simp [srcContrib, hs, extendO]
        | some raw =>
            rw [sourceStep_some_probs _ _ _ _ _ _ hs]
            simp [srcContrib, hs]
      · have hjr : j ∈ rest := by
          rcases List.mem_cons.mp hj with h | h
          · exact absurd h hja
          · exact h
        rw [ih _ _ _ (List.nodup_cons.mp hnd).2 hjr]
        rw [sourceStep_probs_ne _ _ _ _ _ _ hja]

theorem foldSrc_warned_mem (scorer : Nat → Nat → Option RawMap) (i : Nat)
    (ws : List Str) :
    ∀ (js : List Nat) (st : AState) (k : Str),
    k ∈ (js.foldl (sourceStep scorer i ws) st).warned ↔
      k ∈ st.warned ∨ ∃ j ∈ js, srcUnmatched scorer i j ws k = true := by
  intro js
  induction js with
  | nil => intro st k; simp
  | cons a rest ih =>
      intro st k
      simp only [List.foldl_cons]
      rw [ih, sourceStep_warned_mem]
      constructor
      · rintro ((h | h) | ⟨j, hj, h⟩)
        · exact Or.inl h
        · exact Or.inr ⟨a, by simp, h⟩
        · exact Or.inr ⟨j, by simp [hj], h⟩
      · rintro (h | ⟨j, hj, h⟩)
        · exact Or.inl (Or.inl h)
        · rcases List.mem_cons.mp hj with he | hr
          · subst he; exact Or.inl (Or.inr h)
          · exact Or.inr ⟨j, hr, h⟩

theorem foldSrc_log_inv (scorer : Nat → Nat → Option RawMap) (i : Nat)
    (ws : List Str) :
    ∀ (js : List Nat) (st : AState),
    st.log.Nodup → (∀ x, x ∈ st.log ↔ x ∈ st.warned) →
    (js.foldl (sourceStep scorer i ws) st).log.Nodup ∧
      (∀ x, x ∈ (js.foldl (sourceStep scorer i ws) st).log ↔
        x ∈ (js.foldl (sourceStep scorer i ws) st).warned) := by
  intro js
  induction js with
  | nil => intro st h1 h2; exact ⟨h1, h2⟩
  | cons a rest ih =>
      intro st h1 h2
      simp only [List.foldl_cons]
      obtain ⟨h1', h2'⟩ := sourceStep_log_inv scorer i ws st a h1 h2
      exact ih _ h1' h2'

theorem foldBlocks_probs (scorer : Nat → Nat → Option RawMap) (ns : Nat) :
    ∀ (ibs : List (Nat × Str)) (st : AState) (j : Nat) (k : Str), j < ns →
    (ibs.foldl (blockStep scorer ns) st).probs j k =
      extendO (st.probs j k) ((ibs.map (contribFn scorer j k)).flatten) := by
  intro ibs
  induction ibs with
  | nil => intro st j k _; simp [extendO]
  | cons ib rest ih =>
      intro st j k hj
      simp only [List.foldl_cons, List.map_cons, List.flatten_cons]
      rw [ih _ _ _ hj]
      have hstep : (blockStep scorer ns st ib).probs j k =
          extendO (st.probs j k) (contribFn scorer j k ib) := by
        unfold blockStep
        rw [foldSrc_probs_in scorer ib.1 (wordsOf ib.2) (List.range ns) st j k
          (List.nodup_range ns) (List.mem_range.mpr hj)]
        rfl
      rw [hstep, extendO_extendO]

theorem foldBlocks_warned_mem (scorer : Nat → Nat → Option RawMap) (ns : Nat) :
    ∀ (ibs : List (Nat × Str)) (st : AState) (k : Str),
    k ∈ (ibs.foldl (blockStep scorer ns) st).warned ↔
      k ∈ st.warned ∨ ∃ ib ∈ ibs, ∃ j ∈ List.range ns,
        srcUnmatched scorer ib.1 j (wordsOf ib.2) k = true := by
  intro ibs
  induction ibs with
  | nil => intro st k; simp
  | cons ib rest ih =>
      intro st k
      simp only [List.foldl_cons]
      rw [ih]
      have hb : k ∈ (blockStep scorer ns st ib).warned ↔
          k ∈ st.warned ∨ ∃ j ∈ List.range ns,
            srcUnmatched scorer ib.1 j (wordsOf ib.2) k = true := by
        unfold blockStep
        exact foldSrc_warned_mem scorer ib.1 (wordsOf ib.2) (List.range ns) st k
      rw [hb]
      constructor
      · rintro ((h | ⟨j, hj, h⟩) | ⟨ib', hib', j, hj, h⟩)
        · exact Or.inl h
        · exact Or.inr ⟨ib, by simp, j, hj, h⟩
        · exact Or.inr ⟨ib', by simp [hib'], j, hj, h⟩
      · rintro (h | ⟨ib', hib', j, hj, h⟩)
        · exact Or.inl (Or.inl h)
        · rcases List.mem_cons.mp hib' with he | hr
          · subst he; exact Or.inl (Or.inr ⟨j, hj, h⟩)
          · exact Or.inr ⟨ib', hr, j, hj, h⟩

theorem foldBlocks_log_inv (scorer : Nat → Nat → Option RawMap) (ns : Nat) :
    ∀ (ibs : List (Nat × Str)) (st : AState),
    st.log.Nodup → (∀ x, x ∈ st.log ↔ x ∈ st.warned) →
    (ibs.foldl (blockStep scorer ns) st).log.Nodup ∧
      (∀ x, x ∈ (ibs.foldl (blockStep scorer ns) st).log ↔
        x ∈ (ibs.foldl (blockStep scorer ns) st).warned) := by
  intro ibs
  induction ibs with
  | nil => intro st h1 h2; exact ⟨h1, h2⟩
  | cons ib rest ih =>
      intro st h1 h2
      simp only [List.foldl_cons]
      have hb := foldSrc_log_inv scorer ib.1 (wordsOf ib.2) (List.range ns) st h1 h2
      exact ih _ hb.1 hb.2

theorem analyze_probs (blocks : List Str) (ns : Nat)
    (scorer : Nat → Nat → Option RawMap) (j : Nat) (k : Str) (hj : j < ns) :
    (analyze_article blocks ns scorer).probs j k =
      extendO none ((blocks.enum.map (contribFn scorer j k)).flatten) := by
  unfold analyze_article
  rw [foldBlocks_probs scorer ns blocks.enum _ j k hj]

/-- C1: for every run of `analyze_article` in which every response carries
the "probabilities" key (the gateway contract), and for every source index
and lowercase word, the word's score list is, in block order, one entry per
occurrence of the word among the block's word tokens, each equal to the score
resolved from that block's normalized map — so the Nth entry is the score
resolved for the Nth occurrence of the word across the whole article. -/
theorem C1_occurrence_ordering (blocks : List Str) (ns : Nat)
    (scorer : Nat → Nat → Option RawMap)
    (hall : ∀ i j, i < blocks.length → j < ns → scorer i j ≠ none)
    (j : Nat) (hj : j < ns) (k : Str) :
    (analyze_article blocks ns scorer).probs j k =
      extendO none
        ((blocks.enum.map (fun ib =>
          List.replicate ((lowerWordsOf ib.2).count k)
            (resolveScore (normalize_probabilities ((scorer ib.1 j).getD [])) k))).flatten) := by
  rw [analyze_probs blocks ns scorer j k hj]
  congr 2
  apply List.map_congr_left
  intro ib hib
  have hlt : ib.1 < blocks.length := by
    have hg := List.mem_enum_iff_getElem?.mp hib
    have := List.getElem?_eq_some_iff.mp hg
    exact this.1
  have hne := hall ib.1 j hlt hj
  rcases ho : scorer ib.1 j with _ | raw
  · exact absurd ho hne
  · simp [contribFn, ho]

/-- Witness for C1: the claim's concrete scenario — two blocks each
containing the word "test" once, scorer returning 0.9 for block 1 and 0.2
for block 2; the resulting score list for "test" is [0.9, 0.2]. -/
theorem C1_occurrence_ordering_witness :
    (∀ i j : Nat, i < 2 → j < 1 →
      (if i = 0 then some [("test".toList, RawVal.num (mkRat 9 10))]
       else some [("test".toList, RawVal.num (mkRat 1 5))] : Option RawMap) ≠ none) ∧
    (analyze_article ["A test here.".toList, "More test now.".toList] 1
      (fun i _ => if i = 0 then some [("test".toList, RawVal.num (mkRat 9 10))]
                  else some [("test".toList, RawVal.num (mkRat 1 5))])).probs 0 "test".toList
      = some [mkRat 9 10, mkRat 1 5] := by
  constructor
  · intro i j _ _
    by_cases h : i = 0 <;> simp [h]
  · have h := C1_occurrence_ordering
      ["A test here.".toList, "More test now.".toList] 1
      (fun i _ => if i = 0 then some [("test".toList, RawVal.num (mkRat 9 10))]
                  else some [("test".toList, RawVal.num (mkRat 1 5))])
      (by intro i j _ _; by_cases h : i = 0 <;> simp [h]) 0 (by decide) ("test".toList)
    rw [h]
    decide

/-- C9: the score lists of `analyze_article` are characterized by per-block
contributions in which a response lacking the "probabilities" key contributes
no entries at all for its block — not even 0.0 sentinels — while a response
carrying the key (including an empty inner map) contributes one entry per
occurrence of the word in that block; a word's score-list length is therefore
the occurrence count over key-bearing blocks only, smaller than the number of
occurrences processed whenever an occurrence fell in a keyless block. -/
theorem C9_missing_key_appends_nothing (blocks : List Str) (ns : Nat)
    (scorer : Nat → Nat → Option RawMap) (j : Nat) (hj : j < ns) (k : Str) :
    (analyze_article blocks ns scorer).probs j k =
      extendO none ((blocks.enum.map (contribFn scorer j k)).flatten) ∧
    (∀ ib : Nat × Str, scorer ib.1 j = none → contribFn scorer j k ib = []) ∧
    (∀ (ib : Nat × Str) (raw : RawMap), scorer ib.1 j = some raw →
      contribFn scorer j k ib =
        List.replicate ((lowerWordsOf ib.2).count k)
          (resolveScore (normalize_probabilities raw) k)) := by
  refine ⟨analyze_probs blocks ns scorer j k hj, ?_, ?_⟩
  · intro ib h; simp [contribFn, h]
  · intro ib raw h; simp [contribFn, h]

/-- Witness for C9: with two blocks each containing "test" once, a keyless
response for block 0 and an empty-map response for block 1, the score list of
"test" is [0.0] — length 1 though two occurrences were processed, so
occurrence-indexed rendering shifts. -/
theorem C9_missing_key_appends_nothing_witness :
    0 < 1 ∧
    (analyze_article ["test one.".toList, "test two.".toList] 1
      (fun i _ => if i = 0 then none else some [])).probs 0 "test".toList
      = some [0] := by
  refine ⟨by decide, ?_⟩
  have h := (C9_missing_key_appends_nothing ["test one.".toList, "test two.".toList] 1
    (fun i _ => if i = 0 then none else some []) 0 (by decide) ("test".toList)).1
  rw [h]
  decide

/-- C4: a word token whose lowercase form is absent from the block's
normalized map both as-is and after punctuation stripping gets a 0.0 entry
appended per occurrence, and the warning for a distinct unmatched word is
emitted exactly once across the whole run — its count in the warning log is 1
when some processed (block, source) pair leaves it unmatched, else 0. -/
theorem C4_unmatched_sentinel_single_warning (blocks : List Str) (ns : Nat)
    (scorer : Nat → Nat → Option RawMap) (k : Str) :
    ((analyze_article blocks ns scorer).log.count k =
      if unmatchedOccurs blocks ns scorer k = true then 1 else 0) ∧
    (∀ (raw : RawMap) (ws : List Str) (st : PState),
      isUnmatched (normalize_probabilities raw) k = true →
      (processProbabilities raw ws st).sp k =
        extendO (st.sp k) (List.replicate ((ws.map lowerStr).count k) 0)) := by
  constructor
  · unfold analyze_article
    have hinv := foldBlocks_log_inv scorer ns blocks.enum ⟨fun _ _ => none, [], []⟩
      (by simp) (by simp)
    have hwm := foldBlocks_warned_mem scorer ns blocks.enum ⟨fun _ _ => none, [], []⟩ k
    have hmem : k ∈ (blocks.enum.foldl (blockStep scorer ns) ⟨fun _ _ => none, [], []⟩).log ↔
        unmatchedOccurs blocks ns scorer k = true := by
      rw [hinv.2 k, hwm]
      unfold unmatchedOccurs
      simp only [List.any_eq_true, unmatchedAt_eq]
      simp
    by_cases hu : unmatchedOccurs blocks ns scorer k = true
    · rw [if_pos hu]
      exact count_one_of_nodup_mem hinv.1 (hmem.mpr hu)
    · rw [if_neg hu]
      exact List.count_eq_zero.mpr (fun hk => hu (hmem.mp hk))
  · intro raw ws st h
    rw [processProbabilities_eq, processWords_sp, resolveScore_unmatched _ _ h]

/-- Witness for C4: "ghost" is unmatched in both blocks of a run whose
responses carry empty maps; it is warned exactly once, and a single
unmatched occurrence appends exactly one 0.0 entry. -/
theorem C4_unmatched_sentinel_single_warning_witness :
    (analyze_article ["ghost word.".toList, "ghost again.".toList] 1
      (fun _ _ => some [])).log.count "ghost".toList = 1 ∧
    isUnmatched (normalize_probabilities []) "ghost".toList = true ∧
    (processProbabilities [] ["ghost".toList]
      ⟨fun _ => none, [], []⟩).sp "ghost".toList = some [0] := by
  refine ⟨?_, by decide, ?_⟩
  · have h := (C4_unmatched_sentinel_single_warning
      ["ghost word.".toList, "ghost again.".toList] 1 (fun _ _ => some [])
      ("ghost".toList)).1
    rw [h]
    decide
  · have h := (C4_unmatched_sentinel_single_warning
      ["ghost word.".toList, "ghost again.".toList] 1 (fun _ _ => some [])
      ("ghost".toList)).2 [] ["ghost".toList] ⟨fun _ => none, [], []⟩ (by decide)
    rw [h]
    decide

/-! Section: Projector lemmas and claim C7. -/

theorem tier_zero : tier 0 = Color.red := by
  unfold tier HIGH_SUPPORT_THRESHOLD PARTIAL_SUPPORT_THRESHOLD
  norm_num

theorem colorFor_eq_tier (probs : Str → Option (List ℚ)) (wl : Str) (idx : Nat) :
    colorFor probs wl idx = tier (resolveProb probs wl idx) := by
  rcases h : probs wl with _ | l
  · simp [colorFor, resolveProb, h, tier_zero]
  · by_cases hlen : idx < l.length
    · simp [colorFor, resolveProb, h, hlen]
    · have hd : l[idx]? = none := List.getElem?_eq_none (by omega)
      simp [colorFor, resolveProb, h, hlen, List.getD, hd, tier_zero]

theorem colorizeLoop_spec (probs : Str → Option (List ℚ)) :
    ∀ (ts : List (Str × TokClass)) (prev : List Str) (wo : Str → Option Nat),
    (∀ x, wo x = if prev.count x = 0 then none else some (prev.count x - 1)) →
    colorizeLoop probs wo ts = colorizeSpecAux probs prev ts := by
  intro ts
  induction ts with
  | nil => intro prev wo _; rfl
  | cons t rest ih =>
      intro prev wo h
      obtain ⟨tok, cl⟩ := t
      by_cases hw : cl = TokClass.word
      · subst hw
        simp only [colorizeLoop, colorizeSpecAux, if_pos rfl]
        have hcur : (match wo (lowerStr tok) with
            | none => 0
            | some m => m + 1) = prev.count (lowerStr tok) := by
          rw [h]
          by_cases hc : prev.count (lowerStr tok) = 0
          · simp [hc]
          · simp only [if_neg hc]
            show prev.count (lowerStr tok) - 1 + 1 = prev.count (lowerStr tok)
            omega
        rw [hcur, colorFor_eq_tier]
        have htail := ih (prev ++ [lowerStr tok])
          (updF wo (lowerStr tok) (some (prev.count (lowerStr tok))))
          (by
            intro x
            by_cases hx : x = lowerStr tok
            · subst hx
              simp [updF, List.count_append]
            · have hbx : (x == lowerStr tok) = false := beq_eq_false_iff_ne.mpr hx
              have hbx2 : (lowerStr tok == x) = false :=
                beq_eq_false_iff_ne.mpr (Ne.symm hx)
              simp [updF, hx, h x, List.count_append, hbx, hbx2])
        rw [htail]
        simp
      · simp only [colorizeLoop, colorizeSpecAux, if_neg hw]
        congr 1
        exact ih prev wo h

/-- C7: `colorize_article` walks the tokenized article in order with a
per-lowercase-word occurrence counter and renders the Nth occurrence of a
word by the tier of the Nth entry of its score list (green above 0.7, yellow
above 0.35, red otherwise), treating a missing list or an occurrence index
beyond the list as probability 0.0 (red), and passing punctuation and space
tokens through uncolored — it equals the reference rendering that indexes
each word occurrence by the number of its earlier occurrences.  In
particular, "test test test" with score list [0.9, 0.5, 0.1] renders its
three occurrences green, yellow, red. -/
theorem C7_projector_occurrence_mapping (text : Str)
    (probs : Str → Option (List ℚ)) :
    colorize_article text probs = colorizeSpec text probs ∧
    colorize_article "test test test".toList
      (fun k => if k = "test".toList then some [mkRat 9 10, mkRat 1 2, mkRat 1 10] else none) =
      [("test".toList, Color.green), (" ".toList, Color.plain),
       ("test".toList, Color.yellow), (" ".toList, Color.plain),
       ("test".toList, Color.red)] := by
  constructor
  · unfold colorize_article colorizeSpec
    apply colorizeLoop_spec
    intro x
    simp
  · decide

/-- Witness for C6: a three-sentence text packed with target 3. -/
theorem C6_blocker_size_bound_witness :
    1 ≤ 3 ∧
    ((∀ b ∈ split_into_blocks "One two three. Four five. Six.".toList 3,
        countWords b ≤ 3 ∨
          (b ∈ splitSentences "One two three. Four five. Six.".toList ∧
            3 < countWords b)) ∧
     (∃ parts : List (List Str),
        split_into_blocks "One two three. Four five. Six.".toList 3 =
          parts.map joinSp ∧
        parts.flatten = splitSentences "One two three. Four five. Six.".toList)) :=
  ⟨by decide, C6_blocker_size_bound "One two three. Four five. Six.".toList 3 (by decide)⟩

/-! Section: Normalizer step-1 overwrite (claim C3) and invalid entries (claim C8). -/

theorem normStepMap_self (m : NormMap) (w : Str) (p : ℚ) (k : Str)
    (h1 : lowerStr w = k) (h3 : pyStrip k = k) (h4 : endsApostS k = false) :
    normStepMap m w p k = some p := by
  subst h1
  simp only [normStepMap]
  rw [h3]
  simp [h4, updF]

/-- Counterexample to C3 as stated: normalizing the raw map
{"Word": 0.9, "word": 0.3} (in that insertion order) yields word ↦ 0.3, the
later entry's value, not the maximum 0.9 — step 1 overwrites an existing
value instead of keeping the max. -/
theorem C3_counterexample :
    normalize_probabilities
        [("Word".toList, RawVal.num (mkRat 9 10)),
         ("word".toList, RawVal.num (mkRat 3 10))] "word".toList
      = some (mkRat 3 10) ∧
    normalize_probabilities
        [("Word".toList, RawVal.num (mkRat 9 10)),
         ("word".toList, RawVal.num (mkRat 3 10))] "word".toList
      ≠ some (max (mkRat 9 10) (mkRat 3 10)) := by
  constructor
  · decide
  · decide

/-- C3 amended: when two raw entries share the same lowercase form, step 1
of `_normalize_probabilities` does not keep the max — the later entry's
step-1 insertion overwrites the earlier value.  For a two-entry raw map
whose words share the lowercase form `k`, where `k` equals its own
punctuation-stripped form and does not end in apostrophe-s (so steps 2 and 3
leave the key untouched), the normalized value at `k` is the second entry's
probability.  Steps 2 and 3 do keep the max: the spec's own example
{"Word": 0.3, "word,": 0.9} still yields word ↦ 0.9 because that collision
resolves through the step-2 stripped variant. -/
theorem C3_step1_overwrites (w1 w2 k : Str) (p q : ℚ)
    (h1 : lowerStr w1 = k) (h2 : lowerStr w2 = k)
    (h3 : pyStrip k = k) (h4 : endsApostS k = false) :
    normalize_probabilities [(w1, RawVal.num p), (w2, RawVal.num q)] k = some q ∧
    normalize_probabilities
        [("Word".toList, RawVal.num (mkRat 3 10)),
         ("word,".toList, RawVal.num (mkRat 9 10))] "word".toList
      = some (mkRat 9 10) := by
  constructor
  · show normStepMap (normStepMap (fun _ => none) w1 p) w2 q k = some q
    exact normStepMap_self _ _ _ _ h2 h3 h4
  · decide

/-- Witness for C3's amended claim at the counterexample's input. -/
theorem C3_step1_overwrites_witness :
    (lowerStr "Word".toList = "word".toList ∧
     lowerStr "word".toList = "word".toList ∧
     pyStrip "word".toList = "word".toList ∧
     endsApostS "word".toList = false) ∧
    normalize_probabilities
        [("Word".toList, RawVal.num (mkRat 9 10)),
         ("word".toList, RawVal.num (mkRat 3 10))] "word".toList
      = some (mkRat 3 10) := by
  refine ⟨by decide, ?_⟩
  exact (C3_step1_overwrites "Word".toList "word".toList "word".toList
    (mkRat 9 10) (mkRat 3 10) (by decide) (by decide) (by decide) (by decide)).1

theorem normFold_map (raw : RawMap) :
    ∀ (m : NormMap) (log : List Str),
    (raw.foldl normStepL (m, log)).1 = raw.foldl normMapStep m := by
  induction raw with
  | nil => intro m log; rfl
  | cons e rest ih =>
      intro m log
      cases e with
      | mk w v =>
          cases v with
          | num p => exact ih _ _
          | invalid => exact ih _ _

theorem normFold_log (raw : RawMap) :
    ∀ (m : NormMap) (log : List Str),
    (raw.foldl normStepL (m, log)).2 = log ++ (raw.filter isInvalidEntry).map Prod.fst := by
  induction raw with
  | nil => intro m log; simp
  | cons e rest ih =>
      intro m log
      cases e with
      | mk w v =>
          cases v with
          | num p =>
              show (rest.foldl normStepL (normStepMap m w p, log)).2 = _
              rw [ih]
              simp [isInvalidEntry]
          | invalid =>
              show (rest.foldl normStepL (m, log ++ [w])).2 = _
              rw [ih]
              simp [isInvalidEntry]

/-- Counterexample to C8 as stated: the normalizer performs no range check —
the entry "word" ↦ 1.5 parses as a number, is not rejected, and reaches the
normalized map although 1.5 lies outside [0, 1]. -/
theorem C8_counterexample :
    normalize_probabilities [("word".toList, RawVal.num (mkRat 3 2))] "word".toList
      = some (mkRat 3 2) ∧
    ¬ (mkRat 3 2 ≤ 1) := by
  constructor
  · decide
  · decide

/-- C8 amended: only entries whose value fails to parse as a number are
rejected per-entry: the normalized map is exactly the one computed without
the invalid entry (the rest of the map is still used) and the invalid words
are warned about, in order; a value that parses as a number is inserted with
no range check, so out-of-range probabilities do reach the normalized map
(and from there the score lists). -/
theorem C8_invalid_dropped_no_range_check (xs ys : RawMap) (w : Str) :
    normalize_probabilities (xs ++ (w, RawVal.invalid) :: ys) =
      normalize_probabilities (xs ++ ys) ∧
    (normalizeWithLog (xs ++ (w, RawVal.invalid) :: ys)).2 =
      ((xs ++ (w, RawVal.invalid) :: ys).filter isInvalidEntry).map Prod.fst ∧
    (∀ q : ℚ, normalize_probabilities [("word".toList, RawVal.num q)] "word".toList
      = some q) := by
  refine ⟨?_, ?_, ?_⟩
  · show (normalizeWithLog (xs ++ (w, RawVal.invalid) :: ys)).1 =
      (normalizeWithLog (xs ++ ys)).1
    unfold normalizeWithLog
    rw [normFold_map, normFold_map, List.foldl_append, List.foldl_append,
      List.foldl_cons]
    rfl
  · unfold normalizeWithLog
    rw [normFold_log]
    simp
  · intro q
    show normStepMap (fun _ => none) "word".toList q "word".toList = some q
    exact normStepMap_self _ _ _ _ (by decide) (by decide) (by decide)

/-! Section: Scorer gateway error paths (claim C5). -/

/-- Counterexample to C5 as stated: when the response text parses as a JSON
object without the "probabilities" key, `query_for_fact_check` returns that
object as-is — neither a word-probability mapping wrapped under
"probabilities" nor the empty failure value. -/
theorem C5_counterexample :
    hasKey (query_for_fact_check
        (fun _ => Except.ok (JValue.jobj [("foo".toList, JValue.jnull)]))
        (fun _ => none) (Except.ok "x".toList)) probabilitiesKey = false ∧
    hasKey emptyProbs probabilitiesKey = true := by
  constructor
  · rfl
  · rfl

/-- C5 amended: `query_for_fact_check` never propagates an exception and
returns {"probabilities": {}} on every error path — transport exception
(network failure, timeout), response with no extractable JSON object, and
fallback extraction whose parse fails (that exception is caught by the outer
handler); but a response text, or extracted fallback span, that parses is
returned verbatim, whatever its JSON shape. -/
theorem C5_error_paths (loads : Str → Except Unit JValue)
    (search : Str → Option Str) (transport : Except Unit Str) :
    (∀ e, transport = Except.error e →
      query_for_fact_check loads search transport = emptyProbs) ∧
    (∀ t v, transport = Except.ok t → loads t = Except.ok v →
      query_for_fact_check loads search transport = v) ∧
    (∀ t e, transport = Except.ok t → loads t = Except.error e → search t = none →
      query_for_fact_check loads search transport = emptyProbs) ∧
    (∀ t e g v, transport = Except.ok t → loads t = Except.error e →
      search t = some g → loads g = Except.ok v →
      query_for_fact_check loads search transport = v) ∧
    (∀ t e g e2, transport = Except.ok t → loads t = Except.error e →
      search t = some g → loads g = Except.error e2 →
      query_for_fact_check loads search transport = emptyProbs) := by
  refine ⟨?_, ?_, ?_, ?_, ?_⟩
  · intro e he
    subst he
    rfl
  · intro t v ht hl
    subst ht
    simp [query_for_fact_check, parse_response, hl]
  · intro t e ht hl hs
    subst ht
    simp [query_for_fact_check, parse_response, hl, hs]
  · intro t e g v ht hl hs hg
    subst ht
    simp [query_for_fact_check, parse_response, hl, hs, hg]
  · intro t e g e2 ht hl hs hg
    subst ht
    simp [query_for_fact_check, parse_response, hl, hs, hg]

/-- Witness for C5's amended claim: a run whose transport succeeds, whose
response fails to parse, and whose extracted fallback span also fails to
parse, resolves to the empty failure value. -/
theorem C5_error_paths_witness :
    query_for_fact_check (fun _ => Except.error ()) (fun _ => some "g".toList)
      (Except.ok "x".toList) = emptyProbs :=
  (C5_error_paths (fun _ => Except.error ()) (fun _ => some "g".toList)
    (Except.ok "x".toList)).2.2.2.2 "x".toList () "g".toList () rfl rfl rfl rfl

/-! Section: CLI early-exit behavior (claim C10). -/

/-- Counterexample to C10 as stated: with OPENAI_API_KEY absent, `main`
prints the explanatory message and returns normally — the process exit
status is 0, not non-zero as the claim states. -/
theorem C10_counterexample :
    (mainModel none none []).exitCode = 0 ∧
    (mainModel none none []).printed = [keyErrorMsg] ∧
    (mainModel none none []).scoringStarted = false :=
  ⟨rfl, rfl, rfl⟩

/-- C10 amended: if the OPENAI_API_KEY environment variable is absent, or
the article file loads and no file matching source*.txt exists, the program
terminates before any scoring begins with an explanatory message, no stack
trace, and a normal exit status of 0 — not the non-zero status the spec
claims, since `main` plain-returns after printing the error. -/
theorem C10_early_exit (apiKey : Option Str) (article : Option Str)
    (sources : List (Str × Str))
    (h : apiKey = none ∨ (article ≠ none ∧ sources = [])) :
    (mainModel apiKey article sources).scoringStarted = false ∧
    (mainModel apiKey article sources).exitCode = 0 ∧
    (mainModel apiKey article sources).stackTraceLogged = false ∧
    ((mainModel apiKey article sources).printed = [keyErrorMsg] ∨
     (mainModel apiKey article sources).printed = [noSourcesMsg]) := by
  rcases h with h | ⟨ha, hs⟩
  · subst h
    exact ⟨rfl, rfl, rfl, Or.inl rfl⟩
  · subst hs
    cases apiKey with
    | none => exact ⟨rfl, rfl, rfl, Or.inl rfl⟩
    | some key =>
        cases article with
        | none => exact absurd rfl ha
        | some a => exact ⟨rfl, rfl, rfl, Or.inr rfl⟩

/-- Witness for C10's amended claim with the API key absent. -/
theorem C10_early_exit_witness :
    ((none : Option Str) = none ∨
      ((none : Option Str) ≠ none ∧ ([] : List (Str × Str)) = [])) ∧
    ((mainModel none none []).scoringStarted = false ∧
     (mainModel none none []).exitCode = 0 ∧
     (mainModel none none []).stackTraceLogged = false ∧
     ((mainModel none none []).printed = [keyErrorMsg] ∨
      (mainModel none none []).printed = [noSourcesMsg])) :=
  ⟨Or.inl rfl, C10_early_exit none none [] (Or.inl rfl)⟩

end WFC
